import Mathlib

/-!
Verification of the partial hash index (`PartialHashIndexImpl` in
`partial_hash_index_impl.cpp`) and the sort-merge-join column materializer
(`ColumnMaterializer` in `column_materializer.hpp`) of the Hyrise storage
engine, against a shallow embedding of both components.

The index state mirrors the three fields of `PartialHashIndexImpl`:
`_map` (value buckets, kept as an association list in the container's
iteration order: lookup finds the first bucket with the key, a freshly
created bucket is appended), `_null_values` (a boolean-keyed map holding at
most the single entry for key `true`, modelled as an `Option`: `none` when
the key is absent, `some l` when `_null_values[true] = l`), and
`_indexed_chunk_ids`. Chunk data is a list of optional cells (`none` is a
NULL cell); `segment_iterate` visits cells in offset order, which the
embedding renders as a fold over the enumerated cell list.
-/

namespace Hyrise

/-- A row position: chunk id plus offset inside the chunk (`RowID` in
`types.hpp`). -/
structure RowID where
  chunk_id : Nat
  chunk_offset : Nat
deriving DecidableEq, Repr

/-- The state of `PartialHashIndexImpl`: `_map`, `_null_values[true]`, and
`_indexed_chunk_ids` (kept as a duplicate-free list). -/
structure IndexState (T : Type) where
  map : List (T × List RowID)
  nulls : Option (List RowID)
  indexed : List Nat
deriving DecidableEq, Repr

/-- The freshly constructed index: no buckets, no null entry, no chunks. -/
def emptyIndex (T : Type) : IndexState T :=
  { map := [], nulls := none, indexed := [] }

section IndexOps

variable {T : Type} [DecidableEq T]

/-- Append a row id to the bucket for `v`, creating the bucket at the end of
the container when absent (the lazy creation in `add`, lines 31-34). -/
def bucketInsert : List (T × List RowID) → T → RowID → List (T × List RowID)
  | [], v, r => [(v, [r])]
  | kb :: rest, v, r =>
      if kb.1 = v then (kb.1, kb.2 ++ [r]) :: rest else kb :: bucketInsert rest v r

/-- Find the bucket for `v` (`_map.find`): the first entry whose key is `v`. -/
def lookupBucket : List (T × List RowID) → T → Option (List RowID)
  | [], _ => none
  | kb :: rest, v => if kb.1 = v then some kb.2 else lookupBucket rest v

/-- The bucket contents for `v`, empty when the key is absent. -/
def bucketOf (m : List (T × List RowID)) (v : T) : List RowID :=
  (lookupBucket m v).getD []

/-- One visit of `segment_iterate`'s callback in `add` (lines 23-36): a null
cell appends the row id to `_null_values[true]` (creating the entry when
absent), a non-null cell appends it to the value's bucket. -/
def processCell (cid : Nat) (s : IndexState T) (oc : Nat × Option T) : IndexState T :=
  match oc.2 with
  | none => { s with nulls := some (s.nulls.getD [] ++ [⟨cid, oc.1⟩]) }
  | some v => { s with map := bucketInsert s.map v ⟨cid, oc.1⟩ }

/-- Fold the callback over a list of (offset, cell) pairs. -/
def indexRows (s : IndexState T) (cid : Nat) (l : List (Nat × Option T)) : IndexState T :=
  l.foldl (processCell cid) s

/-- Index one not-yet-indexed chunk (`add`, lines 21-36): record the chunk id,
then visit every cell in offset order. -/
def addChunk (s : IndexState T) (cid : Nat) (cells : List (Option T)) : IndexState T :=
  indexRows { s with indexed := s.indexed ++ [cid] } cid cells.enum

/-- The loop body of `add`: a chunk already indexed is skipped. -/
def addStep (s : IndexState T) (c : Nat × List (Option T)) : IndexState T :=
  if c.1 ∈ s.indexed then s else addChunk s c.1 c.2

/-- `PartialHashIndexImpl::add` (lines 13-40): index the given chunks,
returning the new state and the count of newly indexed chunks
(`_indexed_chunk_ids.size() - size_before`). -/
def addImpl (s : IndexState T) (chunks : List (Nat × List (Option T))) :
    IndexState T × Nat :=
  let t := chunks.foldl addStep s
  (t, t.indexed.length - s.indexed.length)

/-- The bucket-map part of one `remove` iteration (lines 49-60): drop every
row id of the chunk from every bucket, erasing a bucket that becomes empty. -/
def removeFromMap (m : List (T × List RowID)) (cid : Nat) : List (T × List RowID) :=
  (m.map (fun kb => (kb.1, kb.2.filter (fun r => decide (r.chunk_id ≠ cid))))).filter
    (fun kb => !kb.2.isEmpty)

/-- One iteration of `remove`'s loop (lines 45-65): a chunk id not indexed is
skipped; otherwise the id is erased, the buckets are filtered, and
`_null_values[true]` is filtered — `operator[]` creates the (empty) null
entry when it was absent, hence the unconditional `some`. -/
def removeChunkId (s : IndexState T) (cid : Nat) : IndexState T :=
  if cid ∈ s.indexed then
    { map := removeFromMap s.map cid,
      nulls := some ((s.nulls.getD []).filter (fun r => decide (r.chunk_id ≠ cid))),
      indexed := s.indexed.erase cid }
  else s

/-- `PartialHashIndexImpl::remove` (lines 42-68): returns the new state and
`size_before - _indexed_chunk_ids.size()`. -/
def removeImpl (s : IndexState T) (cids : List Nat) : IndexState T × Nat :=
  let t := cids.foldl removeChunkId s
  (t, s.indexed.length - t.indexed.length)

/-- The row ids delivered by the iterator range `equals` returns
(lines 70-81): the bucket for the value, or an empty range when absent. -/
def equalsRange (s : IndexState T) (v : T) : List RowID :=
  bucketOf s.map v

/-- The full iteration order `cbegin`..`cend` (lines 96-104): every bucket's
rows, buckets in container order. -/
def allRows (s : IndexState T) : List RowID :=
  (s.map.map Prod.snd).flatten

/-- The two ranges `not_equals` returns (lines 83-94): `(cbegin, eq_begin)`
and `(eq_end, cend)` — the rows of the buckets strictly before the located
bucket, and the rows of the buckets strictly after it; when the value is
absent both iterators of the second range are `cend`, so the first range is
the whole iteration and the second is empty. -/
def notEqualsRanges (s : IndexState T) (v : T) : List RowID × List RowID :=
  let before := s.map.takeWhile (fun kb => decide (kb.1 ≠ v))
  let rest := s.map.dropWhile (fun kb => decide (kb.1 ≠ v))
  ((before.map Prod.snd).flatten, ((rest.drop 1).map Prod.snd).flatten)

end IndexOps

/-- A mutation of the index: one `add` call (chunk ids, data taken from the
table) or one `remove` call. -/
inductive IndexOp where
  | addOp : List Nat → IndexOp
  | removeOp : List Nat → IndexOp

section IndexRun

variable {T : Type} [DecidableEq T]

/-- The chunk handles `add` receives for the given ids: each chunk's data as
stored in the table. -/
def chunksFor (tbl : Nat → List (Option T)) (cids : List Nat) :
    List (Nat × List (Option T)) :=
  cids.map (fun c => (c, tbl c))

/-- Apply one mutation over a fixed table. -/
def applyOp (tbl : Nat → List (Option T)) (s : IndexState T) : IndexOp → IndexState T
  | IndexOp.addOp cids => (addImpl s (chunksFor tbl cids)).1
  | IndexOp.removeOp cids => (removeImpl s cids).1

/-- Run a sequence of `add`/`remove` calls from the empty index. -/
def runOps (tbl : Nat → List (Option T)) (ops : List IndexOp) : IndexState T :=
  ops.foldl (applyOp tbl) (emptyIndex T)

/-- The cell of the table at a row position: `none` when the position is out
of range, `some none` for a NULL cell, `some (some v)` for value `v`. -/
def cellAt (tbl : Nat → List (Option T)) (r : RowID) : Option (Option T) :=
  (tbl r.chunk_id)[r.chunk_offset]?

/-- The representation invariant tying an index state to the table it
indexes: chunk ids are duplicate-free, bucket keys are duplicate-free, no
value bucket is present empty, and a row id sits in the bucket for `v`
(resp. in the null entry) exactly when its chunk is indexed and its cell
holds `v` (resp. is NULL). -/
structure Inv (tbl : Nat → List (Option T)) (s : IndexState T) : Prop where
  indexedNodup : s.indexed.Nodup
  keysNodup : (s.map.map Prod.fst).Nodup
  bucketsNonempty : ∀ kb ∈ s.map, kb.2 ≠ ([] : List RowID)
  mem_bucket : ∀ (v : T) (r : RowID),
    r ∈ bucketOf s.map v ↔ (r.chunk_id ∈ s.indexed ∧ cellAt tbl r = some (some v))
  mem_nulls : ∀ r : RowID,
    r ∈ s.nulls.getD [] ↔ (r.chunk_id ∈ s.indexed ∧ cellAt tbl r = some none)

end IndexRun

section IndexLemmas

variable {T : Type} [DecidableEq T]

theorem lookupBucket_insert_self (m : List (T × List RowID)) (v : T) (r : RowID) :
    lookupBucket (bucketInsert m v r) v = some (bucketOf m v ++ [r]) := by
  induction m with
  | nil => simp [bucketInsert, lookupBucket, bucketOf]
  | cons kb rest ih =>
      by_cases h : kb.1 = v
      · simp [bucketInsert, lookupBucket, bucketOf, h]
      · simp [bucketInsert, lookupBucket, bucketOf, h, ih]

theorem lookupBucket_insert_ne (m : List (T × List RowID)) (v w : T) (r : RowID)
    (hw : w ≠ v) : lookupBucket (bucketInsert m v r) w = lookupBucket m w := by
  have hvw : v ≠ w := Ne.symm hw
  induction m with
  | nil => simp [bucketInsert, lookupBucket, hvw]
  | cons kb rest ih =>
      by_cases h : kb.1 = v
      · rw [bucketInsert, if_pos h]
        have hne : ¬ kb.1 = w := by rw [h]; exact hvw
        rw [lookupBucket, if_neg hne, lookupBucket, if_neg hne]
      · rw [bucketInsert, if_neg h]
        by_cases h2 : kb.1 = w
        · rw [lookupBucket, if_pos h2, lookupBucket, if_pos h2]
        · rw [lookupBucket, if_neg h2, lookupBucket, if_neg h2, ih]

theorem bucketOf_insert (m : List (T × List RowID)) (v w : T) (r : RowID) :
    bucketOf (bucketInsert m v r) w =
      if w = v then bucketOf m w ++ [r] else bucketOf m w := by
  by_cases h : w = v
  · subst h
    simp [bucketOf, lookupBucket_insert_self]
  · simp [bucketOf, lookupBucket_insert_ne m v w r h, h]

theorem keys_bucketInsert (m : List (T × List RowID)) (v : T) (r : RowID) :
    (bucketInsert m v r).map Prod.fst =
      if v ∈ m.map Prod.fst then m.map Prod.fst else m.map Prod.fst ++ [v] := by
  induction m with
  | nil => simp [bucketInsert]
  | cons kb rest ih =>
      by_cases h : kb.1 = v
      · simp [bucketInsert, h]
      · have hne : v ≠ kb.1 := fun hh => h hh.symm
        simp only [bucketInsert, if_neg h, List.map_cons, List.mem_cons, ih]
        by_cases h2 : v ∈ rest.map Prod.fst <;> simp [h2, hne]

theorem keysNodup_bucketInsert {m : List (T × List RowID)} (v : T) (r : RowID)
    (h : (m.map Prod.fst).Nodup) : ((bucketInsert m v r).map Prod.fst).Nodup := by
  rw [keys_bucketInsert]
  by_cases hv : v ∈ m.map Prod.fst
  · simpa [hv]
  · simpa [hv, List.nodup_append] using h

theorem bucketsNonempty_bucketInsert {m : List (T × List RowID)} (v : T) (r : RowID)
    (h : ∀ kb ∈ m, kb.2 ≠ ([] : List RowID)) :
    ∀ kb ∈ bucketInsert m v r, kb.2 ≠ ([] : List RowID) := by
  induction m with
  | nil => simp [bucketInsert]
  | cons hd rest ih =>
      intro kb hkb
      by_cases hh : hd.1 = v
      · rw [bucketInsert, if_pos hh] at hkb
        rcases List.mem_cons.mp hkb with h1 | h1
        · subst h1; simp
        · exact h kb (List.mem_cons_of_mem hd h1)
      · rw [bucketInsert, if_neg hh] at hkb
        rcases List.mem_cons.mp hkb with h1 | h1
        · rw [h1]; exact h hd (List.mem_cons_self hd rest)
        · exact ih (fun p hp => h p (List.mem_cons_of_mem hd hp)) kb h1

theorem indexRows_indexed (cid : Nat) (l : List (Nat × Option T)) (s : IndexState T) :
    (indexRows s cid l).indexed = s.indexed := by
  induction l generalizing s with
  | nil => rfl
  | cons oc rest ih =>
      rw [indexRows, List.foldl_cons]
      rcases oc with ⟨o, c⟩
      cases c <;> exact ih _

theorem indexRows_bucketOf (cid : Nat) (l : List (Nat × Option T)) (s : IndexState T)
    (v : T) :
    bucketOf (indexRows s cid l).map v =
      bucketOf s.map v ++
        (l.filter (fun oc => decide (oc.2 = some v))).map
          (fun oc => RowID.mk cid oc.1) := by
  induction l generalizing s with
  | nil => simp [indexRows]
  | cons oc rest ih =>
      rw [indexRows, List.foldl_cons]
      rcases oc with ⟨o, c⟩
      cases c with
      | none =>
          simpa [indexRows, processCell, List.filter_cons]
            using ih (processCell cid s (o, none))
      | some w =>
          by_cases hw : w = v
          · subst hw
            simpa [indexRows, processCell, bucketOf_insert, List.filter_cons]
              using ih (processCell cid s (o, some w))
          · have hne : some w ≠ some v := by simp [hw]
            have hvw : v ≠ w := fun hh => hw hh.symm
            simpa [indexRows, processCell, bucketOf_insert, List.filter_cons, hvw, hne]
              using ih (processCell cid s (o, some w))

theorem indexRows_nulls (cid : Nat) (l : List (Nat × Option T)) (s : IndexState T) :
    (indexRows s cid l).nulls.getD [] =
      s.nulls.getD [] ++
        (l.filter (fun oc => decide (oc.2 = none))).map
          (fun oc => RowID.mk cid oc.1) := by
  induction l generalizing s with
  | nil => simp [indexRows]
  | cons oc rest ih =>
      rw [indexRows, List.foldl_cons]
      rcases oc with ⟨o, c⟩
      cases c with
      | none =>
          simpa [indexRows, processCell, List.filter_cons]
            using ih (processCell cid s (o, none))
      | some w =>
          simpa [indexRows, processCell, List.filter_cons]
            using ih (processCell cid s (o, some w))

theorem indexRows_keysNodup (cid : Nat) (l : List (Nat × Option T))
    {s : IndexState T} (h : (s.map.map Prod.fst).Nodup) :
    ((indexRows s cid l).map.map Prod.fst).Nodup := by
  induction l generalizing s with
  | nil => exact h
  | cons oc rest ih =>
      rw [indexRows, List.foldl_cons]
      rcases oc with ⟨o, c⟩
      cases c with
      | none => exact ih h
      | some w => exact ih (keysNodup_bucketInsert w ⟨cid, o⟩ h)

theorem indexRows_bucketsNonempty (cid : Nat) (l : List (Nat × Option T))
    {s : IndexState T} (h : ∀ kb ∈ s.map, kb.2 ≠ ([] : List RowID)) :
    ∀ kb ∈ (indexRows s cid l).map, kb.2 ≠ ([] : List RowID) := by
  induction l generalizing s with
  | nil => exact h
  | cons oc rest ih =>
      rw [indexRows, List.foldl_cons]
      rcases oc with ⟨o, c⟩
      cases c with
      | none => exact ih h
      | some w => exact ih (bucketsNonempty_bucketInsert w ⟨cid, o⟩ h)

theorem lookupBucket_eq_none {m : List (T × List RowID)} {v : T}
    (h : v ∉ m.map Prod.fst) : lookupBucket m v = none := by
  induction m with
  | nil => rfl
  | cons kb rest ih =>
      have h1 : ¬ kb.1 = v := by
        intro hh
        exact h (by simp [hh])
      rw [lookupBucket, if_neg h1]
      exact ih (fun hh => h (List.mem_cons_of_mem _ hh))

theorem keys_removeFromMap_sublist (m : List (T × List RowID)) (cid : Nat) :
    ((removeFromMap m cid).map Prod.fst).Sublist (m.map Prod.fst) := by
  have h1 := List.filter_sublist
    (l := m.map (fun kb => (kb.1, kb.2.filter (fun r => decide (r.chunk_id ≠ cid)))))
    (p := fun kb => !kb.2.isEmpty)
  have h2 := h1.map Prod.fst
  simpa [removeFromMap, List.map_map, Function.comp_def] using h2

theorem bucketOf_removeFromMap {m : List (T × List RowID)} (cid : Nat) (v : T)
    (hk : (m.map Prod.fst).Nodup) :
    bucketOf (removeFromMap m cid) v =
      (bucketOf m v).filter (fun r => decide (r.chunk_id ≠ cid)) := by
  induction m with
  | nil => simp [removeFromMap, bucketOf, lookupBucket]
  | cons kb rest ih =>
      simp only [List.map_cons, List.nodup_cons] at hk
      obtain ⟨hk1, hk2⟩ := hk
      have hcons : removeFromMap (kb :: rest) cid =
          if !((kb.2.filter (fun r => decide (r.chunk_id ≠ cid))).isEmpty) then
            (kb.1, kb.2.filter (fun r => decide (r.chunk_id ≠ cid))) ::
              removeFromMap rest cid
          else removeFromMap rest cid := by
        rw [removeFromMap, List.map_cons, List.filter_cons]
        rfl
      by_cases he : kb.2.filter (fun r => decide (r.chunk_id ≠ cid)) = []
      · have hstep : removeFromMap (kb :: rest) cid = removeFromMap rest cid := by
          rw [hcons, he]
          simp
        by_cases hv : kb.1 = v
        · have hnokey : v ∉ (removeFromMap rest cid).map Prod.fst := by
            intro hmem
            rw [← hv] at hmem
            exact hk1 ((keys_removeFromMap_sublist rest cid).subset hmem)
          rw [hstep]
          rw [show bucketOf (removeFromMap rest cid) v = [] by
            rw [bucketOf, lookupBucket_eq_none hnokey]; rfl]
          rw [show bucketOf (kb :: rest) v = kb.2 by
            simp only [bucketOf, lookupBucket, if_pos hv]; rfl]
          exact he.symm
        · rw [hstep, ih hk2]
          rw [show bucketOf (kb :: rest) v = bucketOf rest v by
            simp only [bucketOf, lookupBucket, if_neg hv]]
      · have hstep : removeFromMap (kb :: rest) cid =
            (kb.1, kb.2.filter (fun r => decide (r.chunk_id ≠ cid))) ::
              removeFromMap rest cid := by
          rw [hcons]
          have hne : (kb.2.filter (fun r => decide (r.chunk_id ≠ cid))).isEmpty
              = false := by
            cases hh : kb.2.filter (fun r => decide (r.chunk_id ≠ cid)) with
            | nil => exact absurd hh he
            | cons a l => rfl
          rw [hne]
          rfl
        by_cases hv : kb.1 = v
        · rw [hstep]
          rw [show bucketOf ((kb.1, kb.2.filter (fun r => decide (r.chunk_id ≠ cid)))
              :: removeFromMap rest cid) v
              = kb.2.filter (fun r => decide (r.chunk_id ≠ cid)) by
            simp only [bucketOf, lookupBucket, if_pos hv]; rfl]
          rw [show bucketOf (kb :: rest) v = kb.2 by
            simp only [bucketOf, lookupBucket, if_pos hv]; rfl]
        · rw [hstep]
          rw [show bucketOf ((kb.1, kb.2.filter (fun r => decide (r.chunk_id ≠ cid)))
              :: removeFromMap rest cid) v = bucketOf (removeFromMap rest cid) v by
            simp only [bucketOf, lookupBucket, if_neg hv]]
          rw [show bucketOf (kb :: rest) v = bucketOf rest v by
            simp only [bucketOf, lookupBucket, if_neg hv]]
          exact ih hk2

theorem bucketsNonempty_removeFromMap (m : List (T × List RowID)) (cid : Nat) :
    ∀ kb ∈ removeFromMap m cid, kb.2 ≠ ([] : List RowID) := by
  intro kb hkb
  rw [removeFromMap] at hkb
  have hpred := (List.mem_filter.mp hkb).2
  intro hn
  rw [hn] at hpred
  simp at hpred

theorem mem_chunkRows_iff (cid : Nat) (cells : List (Option T)) (c : Option T)
    (r : RowID) :
    r ∈ (cells.enum.filter (fun oc => decide (oc.2 = c))).map
        (fun oc => RowID.mk cid oc.1) ↔
      (r.chunk_id = cid ∧ cells[r.chunk_offset]? = some c) := by
  constructor
  · intro hr
    obtain ⟨oc, hoc, hrr⟩ := List.mem_map.mp hr
    obtain ⟨hmem, hpred⟩ := List.mem_filter.mp hoc
    have hval : oc.2 = c := of_decide_eq_true hpred
    obtain ⟨o, cc⟩ := oc
    have hget : cells[o]? = some cc := List.mk_mem_enum_iff_getElem?.mp hmem
    simp only at hval
    rw [← hrr]
    refine ⟨rfl, ?_⟩
    show cells[o]? = some c
    rw [hget, hval]
  · rintro ⟨h1, h2⟩
    refine List.mem_map.mpr ⟨(r.chunk_offset, c), List.mem_filter.mpr ⟨?_, by simp⟩, ?_⟩
    · exact List.mk_mem_enum_iff_getElem?.mpr h2
    · obtain ⟨a, b⟩ := r
      simp only at h1
      rw [h1]

theorem inv_removeChunkId {tbl : Nat → List (Option T)} {s : IndexState T}
    (h : Inv tbl s) (cid : Nat) : Inv tbl (removeChunkId s cid) := by
  rw [removeChunkId]
  by_cases hc : cid ∈ s.indexed
  · rw [if_pos hc]
    refine ⟨h.indexedNodup.erase cid,
      h.keysNodup.sublist (keys_removeFromMap_sublist s.map cid),
      bucketsNonempty_removeFromMap s.map cid, ?_, ?_⟩
    · intro v r
      show r ∈ bucketOf (removeFromMap s.map cid) v ↔ _
      rw [bucketOf_removeFromMap cid v h.keysNodup, List.mem_filter,
        h.mem_bucket v r]
      constructor
      · rintro ⟨⟨hi, hcell⟩, hne⟩
        have hne2 : r.chunk_id ≠ cid := of_decide_eq_true hne
        exact ⟨h.indexedNodup.mem_erase_iff.mpr ⟨hne2, hi⟩, hcell⟩
      · rintro ⟨hi, hcell⟩
        obtain ⟨hne2, hi2⟩ := h.indexedNodup.mem_erase_iff.mp hi
        exact ⟨⟨hi2, hcell⟩, decide_eq_true hne2⟩
    · intro r
      show r ∈ ((s.nulls.getD []).filter fun r => decide (r.chunk_id ≠ cid)) ↔ _
      rw [List.mem_filter, h.mem_nulls r]
      constructor
      · rintro ⟨⟨hi, hcell⟩, hne⟩
        have hne2 : r.chunk_id ≠ cid := of_decide_eq_true hne
        exact ⟨h.indexedNodup.mem_erase_iff.mpr ⟨hne2, hi⟩, hcell⟩
      · rintro ⟨hi, hcell⟩
        obtain ⟨hne2, hi2⟩ := h.indexedNodup.mem_erase_iff.mp hi
        exact ⟨⟨hi2, hcell⟩, decide_eq_true hne2⟩
  · rw [if_neg hc]
    exact h

theorem inv_addChunk {tbl : Nat → List (Option T)} {s : IndexState T}
    (h : Inv tbl s) {cid : Nat} (hcid : cid ∉ s.indexed) :
    Inv tbl (addChunk s cid (tbl cid)) := by
  have hidx : (addChunk s cid (tbl cid)).indexed = s.indexed ++ [cid] := by
    rw [addChunk, indexRows_indexed]
  refine ⟨?_, ?_, ?_, ?_, ?_⟩
  · rw [hidx]
    simp [List.nodup_append, h.indexedNodup, hcid]
  · exact indexRows_keysNodup _ _ h.keysNodup
  · exact indexRows_bucketsNonempty _ _ h.bucketsNonempty
  · intro v r
    rw [addChunk, indexRows_bucketOf]
    rw [show ({ s with indexed := s.indexed ++ [cid] } : IndexState T).map = s.map
      from rfl]
    rw [addChunk, indexRows_indexed] at hidx
    rw [List.mem_append, indexRows_indexed, hidx, List.mem_append]
    constructor
    · rintro (h1 | h2)
      · obtain ⟨hi, hcell⟩ := (h.mem_bucket v r).mp h1
        exact ⟨Or.inl hi, hcell⟩
      · obtain ⟨hcr, hcell⟩ := (mem_chunkRows_iff cid (tbl cid) (some v) r).mp h2
        refine ⟨Or.inr (by simp [hcr]), ?_⟩
        rw [cellAt, hcr]
        exact hcell
    · rintro ⟨hi | hi, hcell⟩
      · exact Or.inl ((h.mem_bucket v r).mpr ⟨hi, hcell⟩)
      · have hcr : r.chunk_id = cid := by simpa using hi
        refine Or.inr ((mem_chunkRows_iff cid (tbl cid) (some v) r).mpr ⟨hcr, ?_⟩)
        rw [cellAt, hcr] at hcell
        exact hcell
  · intro r
    rw [addChunk, indexRows_nulls]
    rw [show ({ s with indexed := s.indexed ++ [cid] } : IndexState T).nulls = s.nulls
      from rfl]
    rw [addChunk, indexRows_indexed] at hidx
    rw [List.mem_append, indexRows_indexed, hidx, List.mem_append]
    constructor
    · rintro (h1 | h2)
      · obtain ⟨hi, hcell⟩ := (h.mem_nulls r).mp h1
        exact ⟨Or.inl hi, hcell⟩
      · obtain ⟨hcr, hcell⟩ := (mem_chunkRows_iff cid (tbl cid) none r).mp h2
        refine ⟨Or.inr (by simp [hcr]), ?_⟩
        rw [cellAt, hcr]
        exact hcell
    · rintro ⟨hi | hi, hcell⟩
      · exact Or.inl ((h.mem_nulls r).mpr ⟨hi, hcell⟩)
      · have hcr : r.chunk_id = cid := by simpa using hi
        refine Or.inr ((mem_chunkRows_iff cid (tbl cid) none r).mpr ⟨hcr, ?_⟩)
        rw [cellAt, hcr] at hcell
        exact hcell

theorem inv_addFold {tbl : Nat → List (Option T)} :
    ∀ (chunks : List (Nat × List (Option T))) {s : IndexState T}, Inv tbl s →
      (∀ c ∈ chunks, c.2 = tbl c.1) → Inv tbl (chunks.foldl addStep s) := by
  intro chunks
  induction chunks with
  | nil => intro s h _; exact h
  | cons c rest ih =>
      intro s h hdata
      rw [List.foldl_cons]
      refine ih ?_ (fun d hd => hdata d (List.mem_cons_of_mem c hd))
      rw [addStep]
      by_cases hc : c.1 ∈ s.indexed
      · rw [if_pos hc]; exact h
      · rw [if_neg hc]
        have hd : c.2 = tbl c.1 := hdata c (List.mem_cons_self c rest)
        rw [hd]
        exact inv_addChunk h hc

theorem inv_removeFold {tbl : Nat → List (Option T)} :
    ∀ (cids : List Nat) {s : IndexState T}, Inv tbl s →
      Inv tbl (cids.foldl removeChunkId s) := by
  intro cids
  induction cids with
  | nil => intro s h; exact h
  | cons c rest ih =>
      intro s h
      rw [List.foldl_cons]
      exact ih (inv_removeChunkId h c)

theorem inv_empty (tbl : Nat → List (Option T)) : Inv tbl (emptyIndex T) := by
  refine ⟨List.nodup_nil, List.nodup_nil, by simp [emptyIndex], ?_, ?_⟩
  · intro v r
    simp [emptyIndex, bucketOf, lookupBucket]
  · intro r
    simp [emptyIndex]

theorem inv_applyOp {tbl : Nat → List (Option T)} {s : IndexState T}
    (h : Inv tbl s) (op : IndexOp) : Inv tbl (applyOp tbl s op) := by
  cases op with
  | addOp cids =>
      refine inv_addFold _ h ?_
      intro c hc
      obtain ⟨d, _, rfl⟩ := List.mem_map.mp hc
      rfl
  | removeOp cids => exact inv_removeFold _ h

theorem inv_runOps (tbl : Nat → List (Option T)) (ops : List IndexOp) :
    Inv tbl (runOps tbl ops) := by
  rw [runOps]
  have haux : ∀ (l : List IndexOp) (s : IndexState T), Inv tbl s →
      Inv tbl (l.foldl (applyOp tbl) s) := by
    intro l
    induction l with
    | nil => intro s h; exact h
    | cons op rest ih =>
        intro s h
        rw [List.foldl_cons]
        exact ih _ (inv_applyOp h op)
  exact haux ops (emptyIndex T) (inv_empty tbl)

theorem addFold_all_present {s : IndexState T} {chunks : List (Nat × List (Option T))}
    (h : ∀ c ∈ chunks, c.1 ∈ s.indexed) : chunks.foldl addStep s = s := by
  induction chunks with
  | nil => rfl
  | cons c rest ih =>
      rw [List.foldl_cons, addStep, if_pos (h c (List.mem_cons_self c rest))]
      exact ih (fun d hd => h d (List.mem_cons_of_mem c hd))

theorem removeFold_all_absent {s : IndexState T} {cids : List Nat}
    (h : ∀ c ∈ cids, c ∉ s.indexed) : cids.foldl removeChunkId s = s := by
  induction cids with
  | nil => rfl
  | cons c rest ih =>
      rw [List.foldl_cons, removeChunkId, if_neg (h c (List.mem_cons_self c rest))]
      exact ih (fun d hd => h d (List.mem_cons_of_mem c hd))

theorem addFold_indexed_decomp :
    ∀ (chunks : List (Nat × List (Option T))) (s : IndexState T),
      ∃ L : List Nat, (chunks.foldl addStep s).indexed = s.indexed ++ L ∧
        ∀ x ∈ L, x ∉ s.indexed := by
  intro chunks
  induction chunks with
  | nil => intro s; exact ⟨[], by simp, by simp⟩
  | cons c rest ih =>
      intro s
      rw [List.foldl_cons, addStep]
      by_cases hc : c.1 ∈ s.indexed
      · rw [if_pos hc]
        exact ih s
      · rw [if_neg hc]
        obtain ⟨L, hL, hnotin⟩ := ih (addChunk s c.1 c.2)
        have hidx : (addChunk s c.1 c.2).indexed = s.indexed ++ [c.1] := by
          rw [addChunk, indexRows_indexed]
        refine ⟨c.1 :: L, ?_, ?_⟩
        · rw [hL, hidx, List.append_assoc]
          rfl
        · intro x hx
          rcases List.mem_cons.mp hx with h1 | h1
          · rw [h1]; exact hc
          · intro hxs
            exact hnotin x h1 (by rw [hidx]; exact List.mem_append.mpr (Or.inl hxs))

theorem mem_addFold_indexed :
    ∀ (chunks : List (Nat × List (Option T))) (s : IndexState T) (x : Nat),
      x ∈ (chunks.foldl addStep s).indexed ↔
        x ∈ s.indexed ∨ x ∈ chunks.map Prod.fst := by
  intro chunks
  induction chunks with
  | nil => intro s x; simp
  | cons c rest ih =>
      intro s x
      rw [List.foldl_cons, addStep]
      by_cases hc : c.1 ∈ s.indexed
      · rw [if_pos hc, ih s x]
        have himp : x = c.1 → x ∈ s.indexed := fun h1 => h1 ▸ hc
        simp only [List.map_cons, List.mem_cons]
        tauto
      · rw [if_neg hc, ih (addChunk s c.1 c.2) x]
        have hidx : (addChunk s c.1 c.2).indexed = s.indexed ++ [c.1] := by
          rw [addChunk, indexRows_indexed]
        rw [hidx]
        simp only [List.mem_append, List.mem_singleton, List.map_cons, List.mem_cons]
        tauto

theorem length_filter_split {α : Type} (l : List α) (p : α → Bool) :
    l.length = (l.filter p).length + (l.filter (fun x => !p x)).length := by
  induction l with
  | nil => rfl
  | cons a t ih => by_cases h : p a <;> simp [List.filter_cons, h, ih] <;> omega

theorem removeChunkId_indexed {s : IndexState T} (hnd : s.indexed.Nodup) (c : Nat) :
    (removeChunkId s c).indexed = s.indexed.filter (fun x => decide (x ≠ c)) := by
  rw [removeChunkId]
  by_cases hc : c ∈ s.indexed
  · rw [if_pos hc]
    show s.indexed.erase c = _
    rw [hnd.erase_eq_filter c]
    refine List.filter_congr ?_
    intro x _
    by_cases hx : x = c <;> simp [hx]
  · rw [if_neg hc]
    refine (List.filter_eq_self.mpr ?_).symm
    intro x hx
    have : x ≠ c := fun hh => hc (hh ▸ hx)
    simp [this]

theorem removeFold_indexed :
    ∀ (cids : List Nat) (s : IndexState T), s.indexed.Nodup →
      (cids.foldl removeChunkId s).indexed =
        s.indexed.filter (fun x => decide (x ∉ cids)) := by
  intro cids
  induction cids with
  | nil =>
      intro s _
      refine (List.filter_eq_self.mpr ?_).symm
      intro x _
      simp
  | cons c rest ih =>
      intro s hnd
      rw [List.foldl_cons]
      have hone := removeChunkId_indexed hnd c
      have hnd2 : (removeChunkId s c).indexed.Nodup := by
        rw [hone]; exact hnd.filter _
      rw [ih (removeChunkId s c) hnd2, hone, List.filter_filter]
      refine List.filter_congr ?_
      intro x _
      by_cases h1 : x = c <;> by_cases h2 : x ∈ rest <;>
        simp [h1, h2, List.mem_cons]

theorem lookupBucket_of_mem {m : List (T × List RowID)}
    (hk : (m.map Prod.fst).Nodup) {kb : T × List RowID} (hmem : kb ∈ m) :
    lookupBucket m kb.1 = some kb.2 := by
  induction m with
  | nil => cases hmem
  | cons hd rest ih =>
      simp only [List.map_cons, List.nodup_cons] at hk
      obtain ⟨hk1, hk2⟩ := hk
      rcases List.mem_cons.mp hmem with h1 | h1
      · rw [h1, lookupBucket, if_pos rfl]
      · have hne : ¬ hd.1 = kb.1 := by
          intro hh
          exact hk1 (hh ▸ List.mem_map.mpr ⟨kb, h1, rfl⟩)
        rw [lookupBucket, if_neg hne]
        exact ih hk2 h1

theorem lookupBucket_eq_dropWhile_head (m : List (T × List RowID)) (v : T) :
    lookupBucket m v =
      ((m.dropWhile (fun kb => decide (kb.1 ≠ v))).head?).map Prod.snd := by
  induction m with
  | nil => rfl
  | cons kb rest ih =>
      by_cases hv : kb.1 = v
      · rw [lookupBucket, if_pos hv, List.dropWhile_cons]
        simp [hv]
      · rw [lookupBucket, if_neg hv, List.dropWhile_cons]
        have hp : decide (kb.1 ≠ v) = true := decide_eq_true hv
        rw [hp, if_pos rfl]
        exact ih

theorem dropWhile_head_false {α : Type} (p : α → Bool) :
    ∀ (l : List α) (b : α) (t : List α), l.dropWhile p = b :: t → p b = false := by
  intro l
  induction l with
  | nil => intro b t h; cases h
  | cons a rest ih =>
      intro b t h
      rw [List.dropWhile_cons] at h
      by_cases ha : p a
      · rw [if_pos ha] at h
        exact ih b t h
      · rw [if_neg ha] at h
        cases h
        exact Bool.eq_false_iff.mpr ha

theorem mem_rows_iff (m : List (T × List RowID)) (r : RowID) :
    r ∈ (m.map Prod.snd).flatten ↔ ∃ kb ∈ m, r ∈ kb.2 := by
  simp only [List.mem_flatten, List.mem_map]
  constructor
  · rintro ⟨l, ⟨kb, hkb, rfl⟩, hr⟩
    exact ⟨kb, hkb, hr⟩
  · rintro ⟨kb, hkb, hr⟩
    exact ⟨kb.2, ⟨kb, hkb, rfl⟩, hr⟩

theorem notEqualsRanges_eq (s : IndexState T) (v : T) :
    notEqualsRanges s v =
      (((s.map.takeWhile (fun kb => decide (kb.1 ≠ v))).map Prod.snd).flatten,
       (((s.map.dropWhile (fun kb => decide (kb.1 ≠ v))).drop 1).map Prod.snd).flatten) :=
  rfl

theorem not_equals_partition_of_inv {tbl : Nat → List (Option T)} {s : IndexState T}
    (h : Inv tbl s) (v : T) :
    List.Disjoint (equalsRange s v) (notEqualsRanges s v).1 ∧
    List.Disjoint (equalsRange s v) (notEqualsRanges s v).2 ∧
    (notEqualsRanges s v).1 ++ equalsRange s v ++ (notEqualsRanges s v).2 =
      allRows s := by
  have hsplit := List.takeWhile_append_dropWhile
    (p := fun kb : T × List RowID => decide (kb.1 ≠ v)) (l := s.map)
  cases hrest : s.map.dropWhile (fun kb => decide (kb.1 ≠ v)) with
  | nil =>
      have heq : equalsRange s v = [] := by
        rw [equalsRange, bucketOf, lookupBucket_eq_dropWhile_head, hrest]
        rfl
      have hbefore : s.map.takeWhile (fun kb => decide (kb.1 ≠ v)) = s.map := by
        rw [hrest, List.append_nil] at hsplit
        exact hsplit
      refine ⟨?_, ?_, ?_⟩
      · rw [heq]
        intro a ha
        cases ha
      · rw [heq]
        intro a ha
        cases ha
      · rw [notEqualsRanges_eq, heq, hrest, hbefore]
        simp [allRows]
  | cons b t =>
      have heq : equalsRange s v = b.2 := by
        rw [equalsRange, bucketOf, lookupBucket_eq_dropWhile_head, hrest]
        rfl
      have hbv : b.1 = v := by
        have hb_false := dropWhile_head_false _ s.map b t hrest
        simpa using hb_false
      have hmap : s.map = s.map.takeWhile (fun kb => decide (kb.1 ≠ v)) ++ b :: t := by
        rw [hrest] at hsplit
        exact hsplit.symm
      have hbnott : b.1 ∉ t.map Prod.fst := by
        have hknd := h.keysNodup
        rw [hmap, List.map_append, List.nodup_append] at hknd
        have hcons := hknd.2.1
        rw [List.map_cons, List.nodup_cons] at hcons
        exact hcons.1
      have hcell_of_eq : ∀ r ∈ b.2, cellAt tbl r = some (some v) := by
        intro r hr
        have hmem : r ∈ bucketOf s.map v := by
          rw [bucketOf, lookupBucket_eq_dropWhile_head, hrest]
          simpa using hr
        exact ((h.mem_bucket v r).mp hmem).2
      have hcell_of_mem : ∀ kb ∈ s.map, ∀ r ∈ kb.2,
          cellAt tbl r = some (some kb.1) := by
        intro kb hkb r hr
        have hlk := lookupBucket_of_mem h.keysNodup hkb
        have hmem : r ∈ bucketOf s.map kb.1 := by
          rw [bucketOf, hlk]
          exact hr
        exact ((h.mem_bucket kb.1 r).mp hmem).2
      refine ⟨?_, ?_, ?_⟩
      · rw [heq, notEqualsRanges_eq]
        intro r hrEq hrBefore
        obtain ⟨kb, hkb, hrkb⟩ := (mem_rows_iff _ r).mp hrBefore
        have hkbne : kb.1 ≠ v := of_decide_eq_true
          (List.mem_takeWhile_imp (p := fun kb : T × List RowID => decide (kb.1 ≠ v)) hkb)
        have hkbmem : kb ∈ s.map := by
          rw [hmap]
          exact List.mem_append.mpr (Or.inl hkb)
        have h1 := hcell_of_eq r hrEq
        have h2 := hcell_of_mem kb hkbmem r hrkb
        rw [h1] at h2
        have : some v = some kb.1 := by injection h2
        exact hkbne (by injection this with hh; exact hh.symm)
      · rw [heq, notEqualsRanges_eq]
        intro r hrEq hrAfter
        rw [hrest] at hrAfter
        have hrAfter2 : r ∈ (t.map Prod.snd).flatten := hrAfter
        obtain ⟨kb, hkb, hrkb⟩ := (mem_rows_iff _ r).mp hrAfter2
        have hkbmem : kb ∈ s.map := by
          rw [hmap]
          exact List.mem_append.mpr (Or.inr (List.mem_cons_of_mem b hkb))
      -- kb sits after the located bucket, so its key differs from v
        have hkbne : kb.1 ≠ v := by
          intro hh
          have hmemf : kb.1 ∈ t.map Prod.fst := List.mem_map.mpr ⟨kb, hkb, rfl⟩
          rw [hh, ← hbv] at hmemf
          exact hbnott hmemf
        have h1 := hcell_of_eq r hrEq
        have h2 := hcell_of_mem kb hkbmem r hrkb
        rw [h1] at h2
        have : some v = some kb.1 := by injection h2
        exact hkbne (by injection this with hh; exact hh.symm)
      · rw [heq, notEqualsRanges_eq]
        show _ ++ b.2 ++ _ = allRows s
        rw [allRows]
        conv_rhs => rw [hmap]
        rw [hrest]
        simp [List.map_append, List.flatten_append]

end IndexLemmas

/-- The one-chunk table of the counterexamples: chunk 0 holds the single
non-null value 1, every other chunk is empty. -/
def exTbl : Nat → List (Option Nat) := fun c => if c = 0 then [some 1] else []

section IndexClaims

variable {T : Type} [DecidableEq T]

/-- C1: for every partial hash index (any state reachable by `add`/`remove`
calls over a table, starting empty) and every value `v`, `equals(v)` returns
exactly the row ids among currently indexed chunks whose column value equals
`v` — in particular an empty range when no such value was indexed, and never
a row id whose chunk id is outside `indexed_chunks`. -/
theorem equals_returns_exactly_indexed_matches (tbl : Nat → List (Option T))
    (ops : List IndexOp) (v : T) (r : RowID) :
    r ∈ equalsRange (runOps tbl ops) v ↔
      (r.chunk_id ∈ (runOps tbl ops).indexed ∧ cellAt tbl r = some (some v)) :=
  (inv_runOps tbl ops).mem_bucket v r

/-- C2: for every reachable index state and every value `v`, the two ranges
`not_equals(v)` returns are disjoint from `equals(v)`, and concatenating the
first range, `equals(v)` and the second range reproduces the full bucket
iteration order (`cbegin`..`cend`) exactly once — the split is the
bipartition around the located bucket in container order. -/
theorem not_equals_ranges_partition_iteration (tbl : Nat → List (Option T))
    (ops : List IndexOp) (v : T) :
    List.Disjoint (equalsRange (runOps tbl ops) v)
        (notEqualsRanges (runOps tbl ops) v).1 ∧
    List.Disjoint (equalsRange (runOps tbl ops) v)
        (notEqualsRanges (runOps tbl ops) v).2 ∧
    (notEqualsRanges (runOps tbl ops) v).1 ++ equalsRange (runOps tbl ops) v ++
        (notEqualsRanges (runOps tbl ops) v).2 = allRows (runOps tbl ops) :=
  not_equals_partition_of_inv (inv_runOps tbl ops) v

/-- C3: `add` is idempotent per chunk — when every given chunk id is already
indexed, `add` returns 0 and leaves the whole index state (bucket map, null
positions, indexed chunks, hence `equals`/`not_equals`) unchanged; in
general the returned count is exactly the number of chunk ids newly added to
`indexed_chunks`. -/
theorem add_idempotent_and_returns_new_count (s : IndexState T)
    (chunks : List (Nat × List (Option T))) :
    ((∀ c ∈ chunks, c.1 ∈ s.indexed) → addImpl s chunks = (s, 0)) ∧
    (addImpl s chunks).2 =
      ((addImpl s chunks).1.indexed.filter
        (fun c => decide (c ∉ s.indexed))).length := by
  constructor
  · intro h
    rw [addImpl]
    rw [addFold_all_present h]
    simp
  · obtain ⟨L, hL, hnot⟩ := addFold_indexed_decomp chunks s
    rw [addImpl]
    show (chunks.foldl addStep s).indexed.length - s.indexed.length = _
    rw [hL, List.filter_append, List.length_append]
    have h1 : s.indexed.filter (fun c => decide (c ∉ s.indexed)) = [] := by
      rw [List.filter_eq_nil_iff]
      intro x hx
      simp [hx]
    have h2 : L.filter (fun c => decide (c ∉ s.indexed)) = L := by
      rw [List.filter_eq_self]
      intro x hx
      exact decide_eq_true (hnot x hx)
    rw [h1, h2]
    simp

/-- C4: removing a set of indexed chunks and re-adding the same chunks over
the same table data reproduces the same `equals(v)` result set; `remove`
ignores chunk ids not currently indexed and returns exactly the number of
chunks actually removed from `indexed_chunks`. -/
theorem remove_readd_reproduces_equals (tbl : Nat → List (Option T))
    (ops : List IndexOp) (cids : List Nat) (v : T) (r : RowID) :
    ((∀ c ∈ cids, c ∈ (runOps tbl ops).indexed) →
      (r ∈ equalsRange
          (runOps tbl (ops ++ [IndexOp.removeOp cids, IndexOp.addOp cids])) v ↔
       r ∈ equalsRange (runOps tbl ops) v)) ∧
    (removeImpl (runOps tbl ops) cids).2 =
      ((runOps tbl ops).indexed.filter (fun c => decide (c ∈ cids))).length := by
  have hinv := inv_runOps tbl ops
  have hnd := hinv.indexedNodup
  constructor
  · intro hsub
    have hrun : runOps tbl (ops ++ [IndexOp.removeOp cids, IndexOp.addOp cids]) =
        (addImpl ((removeImpl (runOps tbl ops) cids).1) (chunksFor tbl cids)).1 := by
      rw [runOps, runOps, List.foldl_append]
      rfl
    have hinv2 : Inv tbl
        ((addImpl ((removeImpl (runOps tbl ops) cids).1) (chunksFor tbl cids)).1) :=
      inv_applyOp (inv_applyOp hinv (IndexOp.removeOp cids)) (IndexOp.addOp cids)
    rw [hrun]
    simp only [equalsRange]
    rw [hinv2.mem_bucket v r, hinv.mem_bucket v r]
    have hidx : r.chunk_id ∈
        ((addImpl ((removeImpl (runOps tbl ops) cids).1) (chunksFor tbl cids)).1).indexed
        ↔ r.chunk_id ∈ (runOps tbl ops).indexed := by
      rw [show ((addImpl ((removeImpl (runOps tbl ops) cids).1)
          (chunksFor tbl cids)).1) =
          (chunksFor tbl cids).foldl addStep ((removeImpl (runOps tbl ops) cids).1)
          from rfl]
      rw [mem_addFold_indexed]
      rw [show ((removeImpl (runOps tbl ops) cids).1) =
          cids.foldl removeChunkId (runOps tbl ops) from rfl]
      rw [removeFold_indexed cids _ hnd]
      have hfst : (chunksFor tbl cids).map Prod.fst = cids := by
        rw [chunksFor, List.map_map]
        simp [Function.comp_def]
      rw [hfst, List.mem_filter]
      by_cases hc : r.chunk_id ∈ cids
      · simp [hc, hsub r.chunk_id hc]
      · simp [hc]
    rw [hidx]
  · rw [removeImpl]
    show (runOps tbl ops).indexed.length -
        (cids.foldl removeChunkId (runOps tbl ops)).indexed.length = _
    rw [removeFold_indexed cids _ hnd]
    have hsplitlen := length_filter_split (runOps tbl ops).indexed
      (fun x => decide (x ∈ cids))
    have hcongr : (runOps tbl ops).indexed.filter (fun x => !decide (x ∈ cids)) =
        (runOps tbl ops).indexed.filter (fun x => decide (x ∉ cids)) := by
      refine List.filter_congr ?_
      intro x _
      by_cases hx : x ∈ cids <;> simp [hx]
    rw [hcongr] at hsplitlen
    omega

/-- C5 counterexample: starting from the empty index, adding chunk 0 of
`exTbl` (one non-null cell, so no null entry is created) and then removing
it leaves `_null_values[true]` present with an empty sequence — `remove`'s
`operator[]` access creates the boolean-keyed null bucket even when it only
filters it. -/
theorem null_bucket_present_empty_after_remove :
    (runOps exTbl [IndexOp.addOp [0], IndexOp.removeOp [0]]).nulls = some [] := by
  decide

/-- C5 (amended): across every sequence of `add`/`remove` operations from the
empty index, every row id in any value bucket or in the null entry has its
chunk id in `indexed_chunks`, no chunk id appears twice in `indexed_chunks`,
and no VALUE bucket is present with an empty sequence; the boolean-keyed
null bucket, however, can be left present and empty by `remove`. -/
theorem index_invariant_except_null_bucket (tbl : Nat → List (Option T))
    (ops : List IndexOp) :
    (∀ kb ∈ (runOps tbl ops).map, ∀ r ∈ kb.2,
      r.chunk_id ∈ (runOps tbl ops).indexed) ∧
    (∀ r ∈ (runOps tbl ops).nulls.getD [],
      r.chunk_id ∈ (runOps tbl ops).indexed) ∧
    (runOps tbl ops).indexed.Nodup ∧
    (∀ kb ∈ (runOps tbl ops).map, kb.2 ≠ ([] : List RowID)) := by
  have h := inv_runOps tbl ops
  refine ⟨?_, ?_, h.indexedNodup, h.bucketsNonempty⟩
  · intro kb hkb r hr
    have hlk := lookupBucket_of_mem h.keysNodup hkb
    have hmem : r ∈ bucketOf (runOps tbl ops).map kb.1 := by
      rw [bucketOf, hlk]
      exact hr
    exact ((h.mem_bucket kb.1 r).mp hmem).1
  · intro r hr
    exact ((h.mem_nulls r).mp hr).1

/-- C9: expected empty outcomes are signaled through return values, never
through failure — `equals` on an absent value returns an empty range,
`remove` of chunk ids that were never indexed returns 0 and leaves the state
unchanged, and `add` of chunk ids already indexed returns 0 and leaves the
state unchanged. -/
theorem empty_results_through_return_values (s : IndexState T) (v : T)
    (cids : List Nat) (chunks : List (Nat × List (Option T))) :
    (lookupBucket s.map v = none → equalsRange s v = []) ∧
    ((∀ c ∈ cids, c ∉ s.indexed) → removeImpl s cids = (s, 0)) ∧
    ((∀ c ∈ chunks, c.1 ∈ s.indexed) → addImpl s chunks = (s, 0)) := by
  refine ⟨?_, ?_, ?_⟩
  · intro h
    rw [equalsRange, bucketOf, h]
    rfl
  · intro h
    rw [removeImpl, removeFold_all_absent h]
    simp
  · intro h
    rw [addImpl, addFold_all_present h]
    simp

end IndexClaims

/-! ## Column materializer

`ColumnMaterializer<T>::materialize` (column_materializer.hpp, lines 66-98)
spawns one job per chunk; each job materializes its chunk's segment into a
list of `MaterializedValue`s (nulls dropped, and recorded as row ids when
`_materialize_null` is set), sorts the list by value when `_sort` is set,
and then draws `samples_to_write = min(samples_per_chunk, chunk size)`
samples at stride `segment.size() / max(1, samples_to_collect)` from its own
(null-filtered) segment. The per-chunk sample buffers are concatenated after
all jobs complete. The embedding sequentializes the fork-join: each chunk's
job touches only its own output slot, so the parallel run computes the same
lists. -/

/-- One materialized non-null cell (`MaterializedValue<T>`). -/
structure MaterializedValue (T : Type) where
  row_id : RowID
  value : T
deriving DecidableEq

instance {T : Type} [Inhabited T] : Inhabited (MaterializedValue T) :=
  ⟨⟨⟨0, 0⟩, default⟩⟩

/-- The comparator `_materialize_segment` sorts with (`left.value <
right.value`), as the reflexive order the sorted output satisfies. -/
def valueLE {T : Type} [LinearOrder T] (a b : MaterializedValue T) : Prop :=
  a.value ≤ b.value

instance {T : Type} [LinearOrder T] : DecidableRel (valueLE (T := T)) :=
  fun a b => inferInstanceAs (Decidable (a.value ≤ b.value))

instance {T : Type} [LinearOrder T] : IsTotal (MaterializedValue T) valueLE :=
  ⟨fun a b => le_total a.value b.value⟩

instance {T : Type} [LinearOrder T] : IsTrans (MaterializedValue T) valueLE :=
  ⟨fun _ _ _ h1 h2 => le_trans h1 h2⟩

section Materializer

variable {T : Type} [LinearOrder T] [Inhabited T]

/-- The unsorted materialization of one chunk's segment (`segment_iterate`
loop in `_materialize_segment`, lines 147-156): one entry per non-null cell,
in offset order. -/
def matSegRaw (cid : Nat) (cells : List (Option T)) : List (MaterializedValue T) :=
  cells.enum.filterMap (fun oc => oc.2.map (fun v => ⟨⟨cid, oc.1⟩, v⟩))

/-- `_materialize_segment`'s output (lines 141-166): the raw materialization,
sorted ascending by value when `_sort` is set. -/
def matSeg (sort : Bool) (cid : Nat) (cells : List (Option T)) :
    List (MaterializedValue T) :=
  if sort then List.insertionSort valueLE (matSegRaw cid cells)
  else matSegRaw cid cells

/-- The null row ids one chunk contributes (lines 149-152), collected only
when `_materialize_null` is set. -/
def nullRowsOfChunk (collect : Bool) (cid : Nat) (cells : List (Option T)) :
    List RowID :=
  if collect then
    cells.enum.filterMap (fun oc =>
      match oc.2 with
      | none => some ⟨cid, oc.1⟩
      | some _ => none)
  else []

/-- The constant `samples_per_chunk = 10` of `materialize` (line 68). -/
def samplesPerChunk : Nat := 10

/-- The index `sample_count * step_width` accessed by
`_gather_samples_from_segment` (line 130), with `step_width =
segment.size() / std::max(1u, samples_to_collect)` (line 125). -/
def sampleIndex (s c k : Nat) : Nat := k * (s / max 1 c)

/-- `_gather_samples_from_segment` (lines 119-136): when the segment and the
requested count are both nonzero, collect exactly `c` samples at the strided
indices; otherwise contribute nothing. -/
def gatherSamples (seg : List (MaterializedValue T)) (c : Nat) : List T :=
  if 0 < seg.length ∧ 0 < c then
    (List.range c).map (fun k => (seg.getD (sampleIndex seg.length c k) default).value)
  else []

/-- The number of samples a chunk contributes: `samples_to_write` is clipped
against the chunk's TOTAL row count (line 80), before null filtering. -/
def chunkSampleCount (sort : Bool) (cid : Nat) (cells : List (Option T)) : Nat :=
  (gatherSamples (matSeg sort cid cells) (min samplesPerChunk cells.length)).length

/-- `ColumnMaterializer::materialize` (lines 66-98): the per-chunk segments
(slot `i` for chunk `i`), the concatenated null row ids, and the
concatenated per-chunk samples. -/
def materialize (sort collectNulls : Bool) (tbl : List (List (Option T))) :
    List (List (MaterializedValue T)) × List RowID × List T :=
  (tbl.enum.map (fun ic => matSeg sort ic.1 ic.2),
   (tbl.enum.map (fun ic => nullRowsOfChunk collectNulls ic.1 ic.2)).flatten,
   (tbl.enum.map (fun ic =>
      gatherSamples (matSeg sort ic.1 ic.2) (min samplesPerChunk ic.2.length))).flatten)

theorem sampleIndex_lt_of (s c k : Nat) (hs : 0 < s) (hc : 0 < c) (hk : k < c) :
    sampleIndex s c k < s := by
  rw [sampleIndex, Nat.max_eq_right hc]
  by_cases hq : s / c = 0
  · rw [hq, Nat.mul_zero]
    exact hs
  · have h1 : (k + 1) * (s / c) ≤ c * (s / c) :=
      Nat.mul_le_mul_right _ hk
    have h2 : c * (s / c) ≤ s := Nat.mul_div_le s c
    have h3 : 0 < s / c := Nat.pos_of_ne_zero hq
    have h4 : k * (s / c) + (s / c) ≤ c * (s / c) := by
      rw [← Nat.succ_mul]
      exact h1
    omega

theorem gatherSamples_length (seg : List (MaterializedValue T)) (c : Nat)
    (hseg : seg ≠ []) (hc : 0 < c) : (gatherSamples seg c).length = c := by
  rw [gatherSamples, if_pos ⟨List.length_pos.mpr hseg, hc⟩]
  simp

theorem gatherSamples_get (seg : List (MaterializedValue T)) (c k : Nat)
    (hseg : seg ≠ []) (hc : 0 < c) (hk : k < c) :
    (gatherSamples seg c)[k]? =
      (seg[sampleIndex seg.length c k]?).map MaterializedValue.value := by
  have hlen : 0 < seg.length := List.length_pos.mpr hseg
  have hidx := sampleIndex_lt_of seg.length c k hlen hc hk
  rw [gatherSamples, if_pos ⟨hlen, hc⟩]
  rw [List.getElem?_map, List.getElem?_range hk, List.getElem?_eq_getElem hidx]
  simp only [Option.map_some']
  rw [List.getD_eq_getElem seg default hidx]

theorem matSeg_length (sort : Bool) (cid : Nat) (cells : List (Option T)) :
    (matSeg sort cid cells).length = (matSegRaw cid cells).length := by
  cases sort with
  | false => rfl
  | true =>
      show (List.insertionSort valueLE (matSegRaw cid cells)).length = _
      exact List.length_insertionSort valueLE _

theorem matSegRaw_eq_nil_iff (cid : Nat) (cells : List (Option T)) :
    matSegRaw cid cells = [] ↔ ∀ x ∈ cells, x = none := by
  rw [matSegRaw, List.filterMap_eq_nil_iff]
  constructor
  · intro h x hx
    obtain ⟨i, hi⟩ := List.mem_iff_getElem?.mp hx
    have hmem : (i, x) ∈ cells.enum := List.mk_mem_enum_iff_getElem?.mpr hi
    have := h (i, x) hmem
    cases x with
    | none => rfl
    | some v => simp at this
  · intro h oc hoc
    obtain ⟨i, x⟩ := oc
    have hget : cells[i]? = some x := List.mk_mem_enum_iff_getElem?.mp hoc
    have hx : x ∈ cells := List.mem_iff_getElem?.mpr ⟨i, hget⟩
    rw [show (i, x).2 = x from rfl, h x hx]
    rfl

theorem matSeg_eq_nil_iff (sort : Bool) (cid : Nat) (cells : List (Option T)) :
    matSeg sort cid cells = [] ↔ ∀ x ∈ cells, x = none := by
  rw [← matSegRaw_eq_nil_iff cid cells]
  constructor
  · intro h
    have : (matSeg sort cid cells).length = 0 := by rw [h]; rfl
    rw [matSeg_length] at this
    exact List.length_eq_zero.mp this
  · intro h
    have : (matSeg sort cid cells).length = 0 := by
      rw [matSeg_length, h]
      rfl
    exact List.length_eq_zero.mp this

theorem chunkSampleCount_formula (sort : Bool) (cid : Nat)
    (cells : List (Option T)) :
    chunkSampleCount sort cid cells =
      if cells.any Option.isSome then min samplesPerChunk cells.length else 0 := by
  rw [chunkSampleCount]
  by_cases hny : cells.any Option.isSome
  · rw [if_pos hny]
    obtain ⟨x, hx, hsx⟩ := List.any_eq_true.mp hny
    have hcells : cells ≠ [] := by
      intro hnil
      rw [hnil] at hx
      cases hx
    have hclen : 0 < cells.length := List.length_pos.mpr hcells
    have hc : 0 < min samplesPerChunk cells.length := by
      rw [samplesPerChunk]
      omega
    have hseg : matSeg sort cid cells ≠ [] := by
      intro hnil
      have hall := (matSeg_eq_nil_iff sort cid cells).mp hnil
      rw [hall x hx] at hsx
      simp at hsx
    exact gatherSamples_length _ _ hseg hc
  · rw [if_neg hny]
    have hall : ∀ x ∈ cells, x = none := by
      intro x hx
      cases hxx : x with
      | none => rfl
      | some v =>
          exact absurd (List.any_eq_true.mpr ⟨x, hx, by rw [hxx]; rfl⟩) hny
    have hseg : matSeg sort cid cells = [] := (matSeg_eq_nil_iff sort cid cells).mpr hall
    rw [hseg, gatherSamples]
    simp

end Materializer

section MaterializerClaims

variable {T : Type} [LinearOrder T] [Inhabited T]

/-- C6 counterexample: a one-chunk table whose only row is NULL. The claim
asks for `min(samples_per_chunk, chunk_row_count) = min(10, 1) = 1` samples
from that chunk, but the null-filtered segment is empty, so
`_gather_samples_from_segment`'s guard contributes zero samples. -/
theorem sample_count_min_formula_cex :
    (materialize false false [[(none : Option Nat)]]).2.2.length ≠
      min samplesPerChunk ([(none : Option Nat)].length) := by
  decide

/-- C6 (amended): the total sample count is the sum of the per-chunk sample
counts, and a chunk contributes `min(samples_per_chunk, chunk_row_count)`
samples when it has at least one non-null row — a configured sample count
exceeding the chunk's row count is clipped — but contributes zero samples
when all its rows are NULL (even though `min(samples_per_chunk,
chunk_row_count)` is then positive for a nonempty chunk). -/
theorem sample_counts_per_chunk_and_total (sort collectNulls : Bool)
    (tbl : List (List (Option T))) :
    (materialize sort collectNulls tbl).2.2.length =
      (tbl.enum.map (fun ic => chunkSampleCount sort ic.1 ic.2)).sum ∧
    ∀ ic ∈ tbl.enum, chunkSampleCount sort ic.1 ic.2 =
      if ic.2.any Option.isSome then min samplesPerChunk ic.2.length else 0 := by
  constructor
  · show ((tbl.enum.map _).flatten).length = _
    rw [List.length_flatten, List.map_map]
    rfl
  · intro ic _
    exact chunkSampleCount_formula sort ic.1 ic.2

/-- C7 counterexample: chunk `[5, NULL]`. The claim asks for
`min(samples_per_chunk, segment_size) = min(10, 1) = 1` samples, but the
code draws `samples_to_collect = min(samples_per_chunk, chunk_row_count) =
2` samples (the stride degenerates to 0, repeating element 0). -/
theorem sample_count_uses_row_count_not_segment_size_cex :
    (materialize false false [[some (5 : Nat), none]]).2.2.length ≠
      min samplesPerChunk (matSeg false 0 [some (5 : Nat), none]).length := by
  decide

/-- C7 (amended): when a chunk's null-filtered (and optionally sorted)
segment is nonempty, the task draws exactly `min(samples_per_chunk,
chunk_row_count)` samples — not `min(samples_per_chunk, segment_size)` —
and the `k`-th sample is the element at integer index
`k·(segment_size / max(1, sample_count))` of the segment. -/
theorem samples_drawn_at_strided_indices (sort : Bool) (cid k : Nat)
    (cells : List (Option T)) (hseg : matSeg sort cid cells ≠ [])
    (hk : k < min samplesPerChunk cells.length) :
    (gatherSamples (matSeg sort cid cells) (min samplesPerChunk cells.length)).length =
      min samplesPerChunk cells.length ∧
    (gatherSamples (matSeg sort cid cells) (min samplesPerChunk cells.length))[k]? =
      ((matSeg sort cid cells)[sampleIndex (matSeg sort cid cells).length
          (min samplesPerChunk cells.length) k]?).map MaterializedValue.value := by
  have hc : 0 < min samplesPerChunk cells.length :=
    Nat.lt_of_le_of_lt (Nat.zero_le k) hk
  exact ⟨gatherSamples_length _ _ hseg hc, gatherSamples_get _ _ _ hseg hc hk⟩

/-- C7 witness: the amended statement evaluated on the chunk `[5, NULL]` at
sample position 1. -/
theorem samples_drawn_at_strided_indices_witness :
    (gatherSamples (matSeg false 0 [some (5 : Nat), none])
        (min samplesPerChunk ([some (5 : Nat), none]).length)).length =
      min samplesPerChunk ([some (5 : Nat), none]).length ∧
    (gatherSamples (matSeg false 0 [some (5 : Nat), none])
        (min samplesPerChunk ([some (5 : Nat), none]).length))[1]? =
      ((matSeg false 0 [some (5 : Nat), none])[sampleIndex
          (matSeg false 0 [some (5 : Nat), none]).length
          (min samplesPerChunk ([some (5 : Nat), none]).length) 1]?).map
        MaterializedValue.value :=
  samples_drawn_at_strided_indices false 0 1 [some 5, none] (by decide) (by decide)

/-- C8: when `materialize` is invoked with sort enabled, every materialized
segment of the returned column has its values in non-decreasing order by
value; the sort is applied per chunk only. -/
theorem sorted_segments_when_sort_set (collectNulls : Bool)
    (tbl : List (List (Option T))) (seg : List (MaterializedValue T))
    (hseg : seg ∈ (materialize true collectNulls tbl).1) :
    List.Sorted valueLE seg := by
  have hseg2 : seg ∈ tbl.enum.map (fun ic => matSeg true ic.1 ic.2) := hseg
  obtain ⟨ic, _, rfl⟩ := List.mem_map.mp hseg2
  show List.Sorted valueLE (List.insertionSort valueLE (matSegRaw ic.1 ic.2))
  exact List.sorted_insertionSort valueLE _

/-- C8 witness: the segment materialized with sort from the chunk `[2, 1]`
is sorted. -/
theorem sorted_segments_witness :
    List.Sorted valueLE (matSeg true 0 [some (2 : Nat), some 1]) :=
  sorted_segments_when_sort_set false [[some (2 : Nat), some 1]]
    (matSeg true 0 [some (2 : Nat), some 1]) (by decide)

/-- C10: sample gathering never reads out of bounds — for every nonempty
segment and positive sample count `c` (including `c` larger than the
segment, as happens when nulls shrink the segment), every accessed index
`k·(segment_size / max(1, c))` for `k < c` is strictly below the segment
size. -/
theorem sample_access_within_segment (seg : List (MaterializedValue T))
    (c k : Nat) (hs : seg ≠ []) (hc : 0 < c) (hk : k < c) :
    sampleIndex seg.length c k < seg.length :=
  sampleIndex_lt_of seg.length c k (List.length_pos.mpr hs) hc hk

/-- C10 witness: a three-element segment probed with sample count 10 at
sample position 3. -/
theorem sample_access_within_segment_witness :
    sampleIndex ([⟨⟨0, 0⟩, 7⟩, ⟨⟨0, 1⟩, 8⟩, ⟨⟨0, 2⟩, 9⟩] :
        List (MaterializedValue Nat)).length 10 3 <
      ([⟨⟨0, 0⟩, 7⟩, ⟨⟨0, 1⟩, 8⟩, ⟨⟨0, 2⟩, 9⟩] :
        List (MaterializedValue Nat)).length :=
  sample_access_within_segment _ 10 3 (by decide) (by decide) (by decide)

end MaterializerClaims

end Hyrise
